import Mathlib

/-!
Verification of the expression-desugaring layer of the pathway repository
(`python/pathway/internals/desugaring.py`).

The expression node model and the default bottom-up traversal of
`IdentityTransform` live outside the provided source slice; they are modelled
from the spec (section 3, data model; section 4.1, visitor framework).  Every
transform below embeds the corresponding class of `desugaring.py`; node kinds
that the class does not override follow the modelled identity traversal, which
recurses into child expressions and rebuilds the node.
-/

namespace Desugaring

/-- Modelled from the spec: scalar constant values carried by
`ColumnConstExpression`; `vnull` is the explicit null (Python `None`). -/
inductive Val where
  | vnull
  | vint (n : Int)
  | vstr (s : String)
deriving DecidableEq, Repr

/-- Modelled from the spec: a relation handle is either a concrete relation
identity (equality is identity-based) or a symbolic scope token (the
`ThisMetaclass` placeholder of `thisclass`). -/
inductive Rel where
  | concrete (id : Nat)
  | thisToken (tok : Nat)
deriving DecidableEq, Repr

/-- Modelled from the spec (section 3): the column-expression tree.
`ix` inlines the two fields of the `ColumnReference` stored in
`ColumnIxExpression._column_expression` (its owning relation and its name),
since the source stores a column reference there, not an arbitrary
expression. `reducer` carries an opaque reducer identifier, `methodCall` an
opaque operation name. -/
inductive Expr where
  | columnRef (table : Rel) (name : String)
  | const (v : Val)
  | ix (baseTable : Rel) (baseName : String) (keys : Expr) (optional : Bool)
  | require (val : Expr) (args : List Expr)
  | reducer (red : Nat) (args : List Expr)
  | methodCall (op : String) (args : List Expr)
  | call (callee : Expr) (args : List Expr)
  | pointer (table : Rel) (args : List Expr) (optional : Bool)
deriving Repr

/-- The test `isinstance(arg, expr.ColumnConstExpression) and arg._val is None`
performed by `TableReplacementWithNoneDesugaring.eval_require`. -/
def isNullConst : Expr → Bool
  | .const .vnull => true
  | _ => false

mutual
/-- Embeds `TableReplacementWithNoneDesugaring` (desugaring.py, lines 93-125):
replaces all references to the relation `T` with a null constant.
`eval_column_val` nulls a reference owned by `T`; `eval_ix` passes the stored
base column reference through `super().eval_column_val` (the identity
traversal) and recurses only into the keys; `eval_require` rewrites the value
and all guards, then collapses to a null constant if any rewritten guard is a
null constant.  The remaining node kinds follow the modelled identity
traversal of `IdentityTransform`. -/
def flood (T : Nat) : Expr → Expr
  | .columnRef t n => if t = .concrete T then .const .vnull else .columnRef t n
  | .const v => .const v
  | .ix bt bn k opt => .ix bt bn (flood T k) opt
  | .require v args =>
      let v' := flood T v
      let args' := floodList T args
      if args'.any isNullConst then .const .vnull else .require v' args'
  | .reducer r args => .reducer r (floodList T args)
  | .methodCall op args => .methodCall op (floodList T args)
  | .call c args => .call (flood T c) (floodList T args)
  | .pointer t args opt => .pointer t (floodList T args) opt

/-- Pointwise `flood` over the children lists of a node. -/
def floodList (T : Nat) : List Expr → List Expr
  | [] => []
  | e :: es => flood T e :: floodList T es
end

theorem floodList_eq_map (T : Nat) (l : List Expr) :
    floodList T l = l.map (flood T) := by
  induction l with
  | nil => simp [floodList]
  | cons e es ih => simp [floodList, ih]

theorem isNullConst_iff (e : Expr) : isNullConst e = true ↔ e = .const .vnull := by
  cases e with
  | const v => cases v <;> simp [isNullConst]
  | _ => simp [isNullConst]

mutual
/-- Whether the expression contains a reference to the concrete relation `T`:
as the owner of a column reference, as the owner of the base column reference
of an indexed lookup, or as the relation of a pointer expression. -/
def refersTo (T : Nat) : Expr → Bool
  | .columnRef t _ => decide (t = .concrete T)
  | .const _ => false
  | .ix bt _ k _ => decide (bt = .concrete T) || refersTo T k
  | .require v args => refersTo T v || refersToList T args
  | .reducer _ args => refersToList T args
  | .methodCall _ args => refersToList T args
  | .call c args => refersTo T c || refersToList T args
  | .pointer t args _ => decide (t = .concrete T) || refersToList T args

/-- Pointwise `refersTo` over a children list. -/
def refersToList (T : Nat) : List Expr → Bool
  | [] => false
  | e :: es => refersTo T e || refersToList T es
end

mutual
/-- Whether no `require` node of the expression has a guard that is already a
literal null constant (such a guard makes `eval_require` collapse the node even
when the flooded relation occurs nowhere in it). -/
def noNullGuard : Expr → Bool
  | .columnRef _ _ => true
  | .const _ => true
  | .ix _ _ k _ => noNullGuard k
  | .require v args => noNullGuard v && noNullGuardList args && !(args.any isNullConst)
  | .reducer _ args => noNullGuardList args
  | .methodCall _ args => noNullGuardList args
  | .call c args => noNullGuard c && noNullGuardList args
  | .pointer _ args _ => noNullGuardList args

/-- Pointwise `noNullGuard` over a children list. -/
def noNullGuardList : List Expr → Bool
  | [] => true
  | e :: es => noNullGuard e && noNullGuardList es
end

mutual
theorem flood_of_noRef (T : Nat) (e : Expr) (h1 : refersTo T e = false)
    (h2 : noNullGuard e = true) : flood T e = e := by
  cases e with
  | columnRef t n =>
      simp only [refersTo, decide_eq_false_iff_not] at h1
      simp [flood, h1]
  | const v => simp [flood]
  | ix bt bn k opt =>
      simp only [refersTo, Bool.or_eq_false_iff, decide_eq_false_iff_not] at h1
      simp only [noNullGuard] at h2
      simp [flood, flood_of_noRef T k h1.2 h2]
  | require v args =>
      simp only [refersTo, Bool.or_eq_false_iff] at h1
      simp only [noNullGuard, Bool.and_eq_true, Bool.not_eq_true',
        Bool.and_eq_true] at h2
      have hv := flood_of_noRef T v h1.1 h2.1.1
      have hl := floodList_of_noRef T args h1.2 h2.1.2
      simp [flood, hv, hl, h2.2]
  | reducer r args =>
      simp only [refersTo] at h1
      simp only [noNullGuard] at h2
      simp [flood, floodList_of_noRef T args h1 h2]
  | methodCall op args =>
      simp only [refersTo] at h1
      simp only [noNullGuard] at h2
      simp [flood, floodList_of_noRef T args h1 h2]
  | call c args =>
      simp only [refersTo, Bool.or_eq_false_iff] at h1
      simp only [noNullGuard, Bool.and_eq_true] at h2
      simp [flood, flood_of_noRef T c h1.1 h2.1, floodList_of_noRef T args h1.2 h2.2]
  | pointer t args opt =>
      simp only [refersTo, Bool.or_eq_false_iff] at h1
      simp only [noNullGuard] at h2
      simp [flood, floodList_of_noRef T args h1.2 h2]

theorem floodList_of_noRef (T : Nat) (l : List Expr) (h1 : refersToList T l = false)
    (h2 : noNullGuardList l = true) : floodList T l = l := by
  cases l with
  | nil => simp [floodList]
  | cons e es =>
      simp only [refersToList, Bool.or_eq_false_iff] at h1
      simp only [noNullGuardList, Bool.and_eq_true] at h2
      simp [floodList, flood_of_noRef T e h1.1 h2.1, floodList_of_noRef T es h1.2 h2.2]
end

/-- C1: for `RequireExpression(value, g1..gn)`, null-flooding rewrites the
value and every guard; if any rewritten guard is a null constant the whole
expression reduces to a null constant regardless of the value and of the other
guards, and otherwise the rebuilt node carries the value and the full list of
rewritten guards (all guards are rewritten; only the final result
short-circuits). -/
theorem flood_require_null_law (T : Nat) (v : Expr) (gs : List Expr) :
    ((∃ g ∈ gs, flood T g = .const .vnull) → flood T (.require v gs) = .const .vnull)
    ∧ ((∀ g ∈ gs, flood T g ≠ .const .vnull) →
        flood T (.require v gs) = .require (flood T v) (gs.map (flood T))) := by
  constructor
  · rintro ⟨g, hg, hnull⟩
    have hc : (floodList T gs).any isNullConst = true := by
      rw [floodList_eq_map, List.any_eq_true]
      exact ⟨flood T g, List.mem_map_of_mem _ hg, (isNullConst_iff _).2 hnull⟩
    simp [flood, hc]
  · intro h
    have hc : (floodList T gs).any isNullConst = false := by
      rw [floodList_eq_map]
      rw [Bool.eq_false_iff]
      intro hany
      rw [List.any_eq_true] at hany
      obtain ⟨g', hg', hnull⟩ := hany
      obtain ⟨g, hg, rfl⟩ := List.mem_map.mp hg'
      exact h g hg ((isNullConst_iff _).1 hnull)
    simp only [flood, floodList_eq_map] at hc ⊢
    simp [hc]

theorem flood_require_null_law_witness :
    flood 0 (.require (.const (.vint 1)) [.columnRef (.concrete 0) "g", .const (.vint 2)])
      = .const .vnull :=
  (flood_require_null_law 0 (.const (.vint 1))
      [.columnRef (.concrete 0) "g", .const (.vint 2)]).1
    ⟨.columnRef (.concrete 0) "g", by simp, rfl⟩

/-- C5 counterexample: flooding relation `0` over an indexed lookup whose base
column reference is owned by relation `0` floods only the keys; the base is
passed through the identity traversal (`super().eval_column_val`), so the
rebuilt node still contains a reference to relation `0`, contradicting the
claim that references to the flooded relation inside the base become null
constants. -/
theorem flood_ix_base_counterexample :
    flood 0 (.ix (.concrete 0) "x" (.columnRef (.concrete 0) "k") false)
      = .ix (.concrete 0) "x" (.const .vnull) false
    ∧ refersTo 0 (flood 0 (.ix (.concrete 0) "x" (.columnRef (.concrete 0) "k") false))
      = true :=
  ⟨rfl, rfl⟩

/-- C5 amended: for every indexed-lookup expression, null-flooding relation `T`
recursively floods the keys sub-expression and rebuilds the node preserving the
optional flag, while the base column reference is passed through the identity
traversal unchanged (it is not flooded, even when it references `T`). -/
theorem flood_ix_amended (T : Nat) (bt : Rel) (bn : String) (k : Expr) (opt : Bool) :
    flood T (.ix bt bn k opt) = .ix bt bn (flood T k) opt := rfl

/-- C8 counterexample: the expression `require 1 [null]` contains no reference
to relation `0`, yet flooding relation `0` over it collapses it to a null
constant (the already-null literal guard triggers the collapse in
`eval_require`), so it is not returned unchanged. -/
theorem flood_disjoint_counterexample :
    refersTo 0 (.require (.const (.vint 1)) [.const .vnull]) = false
    ∧ flood 0 (.require (.const (.vint 1)) [.const .vnull]) = .const .vnull
    ∧ (.const .vnull : Expr) ≠ .require (.const (.vint 1)) [.const .vnull] :=
  ⟨rfl, rfl, by simp⟩

/-- C8 amended: null-flooding relation `T` over an expression that contains no
reference to `T` and no `require` node with an already-null literal guard
returns the expression unchanged. -/
theorem flood_disjoint_amended (T : Nat) (e : Expr) (h1 : refersTo T e = false)
    (h2 : noNullGuard e = true) : flood T e = e :=
  flood_of_noRef T e h1 h2

theorem flood_disjoint_amended_witness :
    flood 0 (.require (.columnRef (.concrete 1) "a") [.const (.vint 2)])
      = .require (.columnRef (.concrete 1) "a") [.const (.vint 2)] :=
  flood_disjoint_amended 0
    (.require (.columnRef (.concrete 1) "a") [.const (.vint 2)]) rfl rfl

/-- Embeds `ThisDesugaring._desugar_table` (desugaring.py, lines 55-63).
Modelled from the spec for the part outside the slice:
`ThisMetaclass._eval_substitution` looks the scope token up in the
substitution mapping, and a lookup miss is a failure (never silently
defaulted), here `none`.  A concrete relation is returned unchanged. -/
def desugarTable (σ : List (Nat × Nat)) : Rel → Option Rel
  | .thisToken t => (List.lookup t σ).map .concrete
  | .concrete i => some (.concrete i)

mutual
/-- Embeds `ThisDesugaring` (desugaring.py, lines 33-63): `eval_column_val`
resolves the owning relation of a column reference through `_desugar_table`
and rebuilds the reference against it; `eval_pointer` resolves every
constructor argument, resolves the owning relation the same way, and rebuilds
preserving the optional flag.  The remaining node kinds follow the modelled
identity traversal of `IdentityTransform`, which dispatches back into this
transform on every child (in particular on the base column reference of an
indexed lookup). -/
def thisDesugar (σ : List (Nat × Nat)) : Expr → Option Expr
  | .columnRef t n => (desugarTable σ t).map fun t' => .columnRef t' n
  | .const v => some (.const v)
  | .ix bt bn k opt => do
      let bt' ← desugarTable σ bt
      let k' ← thisDesugar σ k
      some (.ix bt' bn k' opt)
  | .require v args => do
      let v' ← thisDesugar σ v
      let args' ← thisDesugarList σ args
      some (.require v' args')
  | .reducer r args => do
      let args' ← thisDesugarList σ args
      some (.reducer r args')
  | .methodCall op args => do
      let args' ← thisDesugarList σ args
      some (.methodCall op args')
  | .call c args => do
      let c' ← thisDesugar σ c
      let args' ← thisDesugarList σ args
      some (.call c' args')
  | .pointer t args opt => do
      let args' ← thisDesugarList σ args
      let t' ← desugarTable σ t
      some (.pointer t' args' opt)

/-- Pointwise `thisDesugar` over a children list; `none` as soon as one child
fails to resolve. -/
def thisDesugarList (σ : List (Nat × Nat)) : List Expr → Option (List Expr)
  | [] => some []
  | e :: es => do
      let e' ← thisDesugar σ e
      let es' ← thisDesugarList σ es
      some (e' :: es')
end

/-- Whether a relation handle is a concrete relation (not a scope-token
placeholder). -/
def isConcreteRel : Rel → Bool
  | .concrete _ => true
  | .thisToken _ => false

mutual
/-- Whether the expression contains no scope-token placeholder: every owning
relation of a column reference, of the base of an indexed lookup and of a
pointer expression is concrete. -/
def noThis : Expr → Bool
  | .columnRef t _ => isConcreteRel t
  | .const _ => true
  | .ix bt _ k _ => isConcreteRel bt && noThis k
  | .require v args => noThis v && noThisList args
  | .reducer _ args => noThisList args
  | .methodCall _ args => noThisList args
  | .call c args => noThis c && noThisList args
  | .pointer t args _ => isConcreteRel t && noThisList args

/-- Pointwise `noThis` over a children list. -/
def noThisList : List Expr → Bool
  | [] => true
  | e :: es => noThis e && noThisList es
end

theorem desugarTable_of_concrete (σ : List (Nat × Nat)) (t : Rel)
    (h : isConcreteRel t = true) : desugarTable σ t = some t := by
  cases t with
  | concrete i => simp [desugarTable]
  | thisToken tok => simp [isConcreteRel] at h

mutual
theorem thisDesugar_of_noThis (σ : List (Nat × Nat)) (e : Expr)
    (h : noThis e = true) : thisDesugar σ e = some e := by
  cases e with
  | columnRef t n =>
      simp only [noThis, decide_eq_true_eq] at h
      simp [thisDesugar, desugarTable_of_concrete σ t h]
  | const v => simp [thisDesugar]
  | ix bt bn k opt =>
      simp only [noThis, Bool.and_eq_true, decide_eq_true_eq] at h
      simp [thisDesugar, desugarTable_of_concrete σ bt h.1,
        thisDesugar_of_noThis σ k h.2]
  | require v args =>
      simp only [noThis, Bool.and_eq_true] at h
      simp [thisDesugar, thisDesugar_of_noThis σ v h.1,
        thisDesugarList_of_noThis σ args h.2]
  | reducer r args =>
      simp only [noThis] at h
      simp [thisDesugar, thisDesugarList_of_noThis σ args h]
  | methodCall op args =>
      simp only [noThis] at h
      simp [thisDesugar, thisDesugarList_of_noThis σ args h]
  | call c args =>
      simp only [noThis, Bool.and_eq_true] at h
      simp [thisDesugar, thisDesugar_of_noThis σ c h.1,
        thisDesugarList_of_noThis σ args h.2]
  | pointer t args opt =>
      simp only [noThis, Bool.and_eq_true, decide_eq_true_eq] at h
      simp [thisDesugar, desugarTable_of_concrete σ t h.1,
        thisDesugarList_of_noThis σ args h.2]

theorem thisDesugarList_of_noThis (σ : List (Nat × Nat)) (l : List Expr)
    (h : noThisList l = true) : thisDesugarList σ l = some l := by
  cases l with
  | nil => simp [thisDesugarList]
  | cons e es =>
      simp only [noThisList, Bool.and_eq_true] at h
      simp [thisDesugarList, thisDesugar_of_noThis σ e h.1,
        thisDesugarList_of_noThis σ es h.2]
end

/-- C2: with scope token `P` bound to relation `A` in the substitution, a
column reference owned by the placeholder `P` resolves to the same reference
owned by `A`; and a pointer expression owned by `P` resolves each constructor
argument recursively, resolves its owning relation to `A` the same way, and
rebuilds preserving the optional flag. -/
theorem this_resolution_column_and_pointer (σ : List (Nat × Nat)) (P A : Nat)
    (h : List.lookup P σ = some A) :
    (∀ n : String,
      thisDesugar σ (.columnRef (.thisToken P) n) = some (.columnRef (.concrete A) n))
    ∧ (∀ (args args' : List Expr) (opt : Bool),
        thisDesugarList σ args = some args' →
        thisDesugar σ (.pointer (.thisToken P) args opt)
          = some (.pointer (.concrete A) args' opt)) := by
  constructor
  · intro n
    simp [thisDesugar, desugarTable, h]
  · intro args args' opt hargs
    simp [thisDesugar, desugarTable, h, hargs]

theorem this_resolution_column_and_pointer_witness :
    thisDesugar [(0, 5)] (.columnRef (.thisToken 0) "x")
      = some (.columnRef (.concrete 5) "x")
    ∧ thisDesugar [(0, 5)]
        (.pointer (.thisToken 0) [.columnRef (.thisToken 0) "y"] true)
      = some (.pointer (.concrete 5) [.columnRef (.concrete 5) "y"] true) :=
  ⟨(this_resolution_column_and_pointer [(0, 5)] 0 5 rfl).1 "x",
   (this_resolution_column_and_pointer [(0, 5)] 0 5 rfl).2
     [.columnRef (.thisToken 0) "y"] [.columnRef (.concrete 5) "y"] true rfl⟩

/-- C9: self-reference resolution is idempotent on fully resolved input: an
expression containing no scope-token placeholder resolves, under any
substitution, to itself (structurally unchanged, and in particular with no
residual placeholder). -/
theorem this_idempotent (σ : List (Nat × Nat)) (e : Expr)
    (h : noThis e = true) : thisDesugar σ e = some e :=
  thisDesugar_of_noThis σ e h

theorem this_idempotent_witness :
    thisDesugar [(0, 5)]
      (.pointer (.concrete 2) [.columnRef (.concrete 3) "y"] false)
      = some (.pointer (.concrete 2) [.columnRef (.concrete 3) "y"] false) :=
  this_idempotent [(0, 5)]
    (.pointer (.concrete 2) [.columnRef (.concrete 3) "y"] false) (by decide)

/-- Modelled from the spec: the raw value of an argument handed to
`combine_args_kwargs` — either a column expression or a non-expression
literal value (tables are excluded by the assertion in the source). -/
inductive ArgLike where
  | exprArg (e : Expr)
  | litArg (v : Val)

/-- The wrapping step of `combine_args_kwargs.add` (desugaring.py lines
254-255): a non-expression literal is wrapped as a constant expression, an
expression is kept unchanged. -/
def toColumnExpression : ArgLike → Expr
  | .exprArg e => e
  | .litArg v => .const v

/-- Modelled from the spec: `expr.smart_name`, the canonical name of a
positional expression — the referenced column's own name for a column
reference, and the name of the stored base column reference for an indexed
lookup; no name otherwise. -/
def smart_name : Expr → Option String
  | .columnRef _ n => some n
  | .ix _ n _ _ => some n
  | _ => none

/-- The two `ValueError` cases of `combine_args_kwargs.add`. -/
inductive CombineErr where
  | dup (name : Option String)
  | reservedId
deriving DecidableEq, Repr

/-- Embeds the inner `add` of `combine_args_kwargs` (desugaring.py lines
246-256): reject a name already present, then reject the reserved name `id`,
otherwise append the (possibly wrapped) expression under the name. -/
def addArg (acc : List (Option String × Expr)) (name : Option String)
    (a : ArgLike) : Except CombineErr (List (Option String × Expr)) :=
  if name ∈ acc.map Prod.fst then .error (.dup name)
  else if name = some "id" then .error .reservedId
  else .ok (acc ++ [(name, toColumnExpression a)])

/-- The items processed by `combine_args_kwargs`, in order: positional
expressions under their smart name, then keyword arguments under their
keyword. -/
def combineItems (args : List Expr) (kwargs : List (String × ArgLike)) :
    List (Option String × ArgLike) :=
  args.map (fun e => (smart_name e, ArgLike.exprArg e))
    ++ kwargs.map (fun p => (some p.1, p.2))

/-- Embeds `combine_args_kwargs` (desugaring.py lines 240-263). -/
def combine_args_kwargs (args : List Expr) (kwargs : List (String × ArgLike)) :
    Except CombineErr (List (Option String × Expr)) :=
  (combineItems args kwargs).foldlM (fun acc p => addArg acc p.1 p.2) []

theorem exceptBind_ok {ε α β : Type} (a : α) (k : α → Except ε β) :
    (Except.ok a >>= k) = k a := rfl

theorem exceptBind_error {ε α β : Type} (e : ε) (k : α → Except ε β) :
    ((Except.error e : Except ε α) >>= k) = Except.error e := rfl

theorem combineFold_ok (items : List (Option String × ArgLike)) :
    ∀ acc : List (Option String × Expr),
    (acc.map Prod.fst ++ items.map Prod.fst).Nodup →
    some "id" ∉ items.map Prod.fst →
    items.foldlM (fun acc p => addArg acc p.1 p.2) acc
      = .ok (acc ++ items.map (fun p => (p.1, toColumnExpression p.2))) := by
  induction items with
  | nil => intro acc _ _; simp [List.foldlM_nil]; rfl
  | cons hd rest ih =>
      intro acc hnd hid
      simp only [List.map_cons, List.mem_cons] at hid
      push_neg at hid
      have hid1 : hd.1 ≠ some "id" := fun h => hid.1 h.symm
      have hnd0 : (acc.map Prod.fst ++ hd.1 :: rest.map Prod.fst).Nodup := by
        simpa using hnd
      have hcons := List.nodup_middle.mp hnd0
      have hne := (List.nodup_cons.mp hcons).1
      have hnotin : hd.1 ∉ acc.map Prod.fst :=
        fun hmem => hne (List.mem_append_left _ hmem)
      have hadd : addArg acc hd.1 hd.2
          = .ok (acc ++ [(hd.1, toColumnExpression hd.2)]) := by
        simp [addArg, hnotin, hid1]
      rw [List.foldlM_cons, hadd, exceptBind_ok]
      have hnd' : ((acc ++ [(hd.1, toColumnExpression hd.2)]).map Prod.fst
          ++ rest.map Prod.fst).Nodup := by
        simp only [List.map_append, List.map_cons, List.map_nil, List.append_assoc,
          List.singleton_append]
        exact hnd0
      rw [ih (acc ++ [(hd.1, toColumnExpression hd.2)]) hnd' hid.2]
      simp

theorem combineFold_ok_inv (items : List (Option String × ArgLike)) :
    ∀ (acc : List (Option String × Expr)) (l : List (Option String × Expr)),
    (acc.map Prod.fst).Nodup →
    items.foldlM (fun acc p => addArg acc p.1 p.2) acc = .ok l →
    (acc.map Prod.fst ++ items.map Prod.fst).Nodup
      ∧ some "id" ∉ items.map Prod.fst := by
  induction items with
  | nil => intro acc l hnd _; simpa using hnd
  | cons hd rest ih =>
      intro acc l hnd hok
      rw [List.foldlM_cons] at hok
      rcases hadd : addArg acc hd.1 hd.2 with e | acc'
      · rw [hadd, exceptBind_error] at hok; simp at hok
      · rw [hadd, exceptBind_ok] at hok
        have hcond : hd.1 ∉ acc.map Prod.fst ∧ hd.1 ≠ some "id"
            ∧ acc' = acc ++ [(hd.1, toColumnExpression hd.2)] := by
          by_cases h1 : hd.1 ∈ acc.map Prod.fst
          · simp [addArg, h1] at hadd
          · by_cases h2 : hd.1 = some "id"
            · simp only [addArg] at hadd
              rw [if_neg h1, if_pos h2] at hadd
              simp at hadd
            · simp [addArg, h1, h2] at hadd
              exact ⟨h1, h2, hadd.symm⟩
        obtain ⟨h1, h2, rfl⟩ := hcond
        have hnd' : ((acc ++ [(hd.1, toColumnExpression hd.2)]).map Prod.fst).Nodup := by
          simp only [List.map_append, List.map_cons, List.map_nil]
          rw [List.nodup_append]
          exact ⟨hnd, List.nodup_singleton _, by simpa using h1⟩
        obtain ⟨ha, hb⟩ := ih _ l hnd' hok
        constructor
        · simp only [List.map_append, List.map_cons, List.map_nil, List.append_assoc,
            List.singleton_append] at ha
          simpa using ha
        · simp only [List.map_cons, List.mem_cons]
          push_neg
          exact ⟨fun h => h2 h.symm, hb⟩

theorem combineFold_reservedId (items : List (Option String × ArgLike)) :
    ∀ acc : List (Option String × Expr),
    items.foldlM (fun acc p => addArg acc p.1 p.2) acc = .error .reservedId →
    some "id" ∈ items.map Prod.fst := by
  induction items with
  | nil =>
      intro acc h
      rw [List.foldlM_nil] at h
      exact absurd h (by simp [pure, Except.pure])
  | cons hd rest ih =>
      intro acc h
      rw [List.foldlM_cons] at h
      rcases hadd : addArg acc hd.1 hd.2 with e | acc'
      · rw [hadd, exceptBind_error] at h
        simp only [Except.error.injEq] at h
        subst h
        by_cases h1 : hd.1 ∈ acc.map Prod.fst
        · simp [addArg, h1] at hadd
        · by_cases h2 : hd.1 = some "id"
          · simp [List.map_cons, h2]
          · simp [addArg, h1, h2] at hadd
      · rw [hadd, exceptBind_ok] at h
        simp only [List.map_cons, List.mem_cons]
        exact Or.inr (ih acc' h)

theorem combineFold_dup (items : List (Option String × ArgLike)) :
    ∀ (acc : List (Option String × Expr)) (n : Option String),
    (acc.map Prod.fst).Nodup →
    items.foldlM (fun acc p => addArg acc p.1 p.2) acc = .error (.dup n) →
    ¬ (acc.map Prod.fst ++ items.map Prod.fst).Nodup := by
  induction items with
  | nil =>
      intro acc n _ h
      rw [List.foldlM_nil] at h
      exact absurd h (by simp [pure, Except.pure])
  | cons hd rest ih =>
      intro acc n hnd h
      rw [List.foldlM_cons] at h
      rcases hadd : addArg acc hd.1 hd.2 with e | acc'
      · rw [hadd, exceptBind_error] at h
        simp only [Except.error.injEq] at h
        subst h
        by_cases h1 : hd.1 ∈ acc.map Prod.fst
        · intro hcon
          rw [List.map_cons] at hcon
          have hcons := List.nodup_middle.mp hcon
          exact (List.nodup_cons.mp hcons).1 (List.mem_append_left _ h1)
        · by_cases h2 : hd.1 = some "id"
          · simp only [addArg] at hadd
            rw [if_neg h1, if_pos h2] at hadd
            simp at hadd
          · simp [addArg, h1, h2] at hadd
      · rw [hadd, exceptBind_ok] at h
        have hcond : hd.1 ∉ acc.map Prod.fst
            ∧ acc' = acc ++ [(hd.1, toColumnExpression hd.2)] := by
          by_cases h1 : hd.1 ∈ acc.map Prod.fst
          · simp [addArg, h1] at hadd
          · by_cases h2 : hd.1 = some "id"
            · simp only [addArg] at hadd
              rw [if_neg h1, if_pos h2] at hadd
              simp at hadd
            · simp [addArg, h1, h2] at hadd
              exact ⟨h1, hadd.symm⟩
        obtain ⟨h1, rfl⟩ := hcond
        have hnd' : ((acc ++ [(hd.1, toColumnExpression hd.2)]).map Prod.fst).Nodup := by
          simp only [List.map_append, List.map_cons, List.map_nil]
          rw [List.nodup_append]
          exact ⟨hnd, List.nodup_singleton _, by simpa using h1⟩
        have := ih _ n hnd' h
        intro hcon
        apply this
        simp only [List.map_append, List.map_cons, List.map_nil, List.append_assoc,
          List.singleton_append]
        simpa using hcon

/-- The effective names of a call's arguments, in processing order: the smart
names of the positional expressions, then the keyword names. -/
def effNames (args : List Expr) (kwargs : List (String × ArgLike)) :
    List (Option String) :=
  args.map smart_name ++ kwargs.map (fun p => some p.1)

theorem combineItems_names (args : List Expr) (kwargs : List (String × ArgLike)) :
    (combineItems args kwargs).map Prod.fst = effNames args kwargs := by
  have h1 : (Prod.fst ∘ fun e : Expr => (smart_name e, ArgLike.exprArg e))
      = smart_name := funext fun _ => rfl
  have h2 : (Prod.fst ∘ fun p : String × ArgLike => ((some p.1 : Option String), p.2))
      = fun p => some p.1 := funext fun _ => rfl
  simp only [combineItems, effNames, List.map_append, List.map_map, h1, h2]

/-- C3: with all-distinct effective names none of which is `id`,
`combine_args_kwargs` succeeds and returns exactly the `n + m` entries, the
positional expressions under their smart names and the keyword values (with a
non-expression literal wrapped as a constant expression) under their keywords;
it succeeds only in that case; with distinct names one of which is `id` it
raises the reserved-name error; with a duplicated effective name and no `id`
it raises a duplicate-name error. -/
theorem combine_args_kwargs_spec (args : List Expr) (kwargs : List (String × ArgLike)) :
    ((effNames args kwargs).Nodup → some "id" ∉ effNames args kwargs →
      combine_args_kwargs args kwargs
        = .ok (args.map (fun e => (smart_name e, e))
            ++ kwargs.map (fun p => (some p.1, toColumnExpression p.2)))
      ∧ ∀ l, combine_args_kwargs args kwargs = .ok l →
          l.length = args.length + kwargs.length)
    ∧ ((∃ l, combine_args_kwargs args kwargs = .ok l) →
        (effNames args kwargs).Nodup ∧ some "id" ∉ effNames args kwargs)
    ∧ ((effNames args kwargs).Nodup → some "id" ∈ effNames args kwargs →
        combine_args_kwargs args kwargs = .error .reservedId)
    ∧ (¬ (effNames args kwargs).Nodup → some "id" ∉ effNames args kwargs →
        ∃ n, combine_args_kwargs args kwargs = .error (.dup n))
    ∧ (∀ v : Val, toColumnExpression (.litArg v) = .const v) := by
  have hnames := combineItems_names args kwargs
  refine ⟨?_, ?_, ?_, ?_, fun v => rfl⟩
  · intro hnd hid
    have hok := combineFold_ok (combineItems args kwargs) []
      (by simpa [hnames] using hnd) (by simpa [hnames] using hid)
    have h3 : ((fun p : Option String × ArgLike => (p.1, toColumnExpression p.2))
        ∘ fun e : Expr => (smart_name e, ArgLike.exprArg e))
        = fun e => (smart_name e, e) := funext fun _ => rfl
    have h4 : ((fun p : Option String × ArgLike => (p.1, toColumnExpression p.2))
        ∘ fun p : String × ArgLike => ((some p.1 : Option String), p.2))
        = fun p => (some p.1, toColumnExpression p.2) := funext fun _ => rfl
    constructor
    · rw [combine_args_kwargs, hok]
      simp only [List.nil_append, combineItems, List.map_append, List.map_map, h3, h4]
    · intro l hl
      rw [combine_args_kwargs, hok] at hl
      simp only [Except.ok.injEq] at hl
      subst hl
      simp [combineItems]
  · rintro ⟨l, hl⟩
    have := combineFold_ok_inv (combineItems args kwargs) [] l (by simp) hl
    rw [List.map_nil, List.nil_append, hnames] at this
    exact this
  · intro hnd hid
    rcases hres : combine_args_kwargs args kwargs with e | l
    · cases e with
      | dup n =>
          exact absurd (by simpa [hnames] using
            combineFold_dup (combineItems args kwargs) [] n (by simp) hres) (by simpa using hnd)
      | reservedId => rfl
    · obtain ⟨_, hid'⟩ := combineFold_ok_inv (combineItems args kwargs) [] l (by simp) hres
      rw [hnames] at hid'
      exact absurd hid hid'
  · intro hnd hid
    rcases hres : combine_args_kwargs args kwargs with e | l
    · cases e with
      | dup n => exact ⟨n, rfl⟩
      | reservedId =>
          have := combineFold_reservedId (combineItems args kwargs) [] hres
          rw [hnames] at this
          exact absurd this hid
    · obtain ⟨hnd', _⟩ := combineFold_ok_inv (combineItems args kwargs) [] l (by simp) hres
      rw [List.map_nil, List.nil_append, hnames] at hnd'
      exact absurd hnd' hnd

theorem combine_args_kwargs_spec_witness :
    combine_args_kwargs [.columnRef (.concrete 1) "a"] [("b", .litArg (.vint 3))]
      = .ok [(some "a", .columnRef (.concrete 1) "a"), (some "b", .const (.vint 3))] :=
  ((combine_args_kwargs_spec [.columnRef (.concrete 1) "a"]
      [("b", .litArg (.vint 3))]).1 (by decide) (by decide)).1

/-- Modelled from the spec: an opaque dtype returned by the external type
interpreter. -/
abbrev Dtype := String

/-- Modelled from the spec: the external collaborators of
`TableCallbackDesugaring.eval_call` — `mkInput` is the `callback`
(`table_like.select(...)` or `table_like.reduce(...)`), taking the raw callee
expression and the named argument columns and building the operator's input
relation; `transformerTable` is
`RowTransformer.method_call_transformer(arity, dtype)` applied to that input
relation, yielding the output relation (`call_result.table`); `evalType` is
`type_interpreter.eval_type`. -/
structure CallbackCtx where
  mkInput : Expr → List (String × Expr) → Rel
  transformerTable : Nat → Dtype → Rel → Rel
  evalType : Expr → Dtype

/-- The synthetic argument binding of `eval_call` (desugaring.py lines
142-145): the i-th rewritten positional argument under the name `arg_i`. -/
def namedArgs (l : List Expr) : List (String × Expr) :=
  l.enum.map fun p => ("arg_" ++ toString p.1, p.2)

mutual
/-- Embeds `TableSelectDesugaring` (desugaring.py lines 128-168), the
projection flavor: `eval_call` recursively rewrites each positional argument,
binds the rewritten arguments under the synthetic names `arg_0..`, requests a
row transformer sized by the argument count and the statically inferred type
of the original call expression, builds the input relation from the raw
callee expression and the named argument columns through the select callback,
and returns a column reference to the `result` column of the generated
operator's output relation.  The remaining node kinds follow the modelled
identity traversal of `IdentityTransform`. -/
def selectDesugarExpr (c : CallbackCtx) : Expr → Expr
  | .call callee args =>
      let args' := selectDesugarList c args
      .columnRef
        (c.transformerTable args'.length (c.evalType (.call callee args))
          (c.mkInput callee (namedArgs args'))) "result"
  | .columnRef t n => .columnRef t n
  | .const v => .const v
  | .ix bt bn k opt => .ix bt bn (selectDesugarExpr c k) opt
  | .require v args => .require (selectDesugarExpr c v) (selectDesugarList c args)
  | .reducer r args => .reducer r (selectDesugarList c args)
  | .methodCall op args => .methodCall op (selectDesugarList c args)
  | .pointer t args opt => .pointer t (selectDesugarList c args) opt

/-- Pointwise `selectDesugarExpr` over a children list. -/
def selectDesugarList (c : CallbackCtx) : List Expr → List Expr
  | [] => []
  | e :: es => selectDesugarExpr c e :: selectDesugarList c es
end

mutual
/-- Embeds `TableReduceDesugaring` (desugaring.py lines 171-188), the
aggregation flavor: `eval_call` is inherited from `TableCallbackDesugaring`
with the reduce callback (`cr`); `eval_reducer` desugars every reducer
argument with a `TableSelectDesugaring` built over
`table_like._joinable_to_group`, the pre-aggregation relation (`cs`), and
rebuilds a reducer expression with the same reducer around the rewritten
arguments. -/
def reduceDesugarExpr (cr cs : CallbackCtx) : Expr → Expr
  | .call callee args =>
      let args' := reduceDesugarList cr cs args
      .columnRef
        (cr.transformerTable args'.length (cr.evalType (.call callee args))
          (cr.mkInput callee (namedArgs args'))) "result"
  | .reducer r args => .reducer r (selectDesugarList cs args)
  | .columnRef t n => .columnRef t n
  | .const v => .const v
  | .ix bt bn k opt => .ix bt bn (reduceDesugarExpr cr cs k) opt
  | .require v args => .require (reduceDesugarExpr cr cs v) (reduceDesugarList cr cs args)
  | .methodCall op args => .methodCall op (reduceDesugarList cr cs args)
  | .pointer t args opt => .pointer t (reduceDesugarList cr cs args) opt

/-- Pointwise `reduceDesugarExpr` over a children list. -/
def reduceDesugarList (cr cs : CallbackCtx) : List Expr → List Expr
  | [] => []
  | e :: es => reduceDesugarExpr cr cs e :: reduceDesugarList cr cs es
end

theorem selectDesugarList_eq_map (c : CallbackCtx) (l : List Expr) :
    selectDesugarList c l = l.map (selectDesugarExpr c) := by
  induction l with
  | nil => simp [selectDesugarList]
  | cons e es ih => simp [selectDesugarList, ih]

theorem namedArgs_names (l : List Expr) :
    (namedArgs l).map Prod.fst
      = (List.range l.length).map (fun i => "arg_" ++ toString i) := by
  have h1 : (Prod.fst ∘ fun p : Nat × Expr => ("arg_" ++ toString p.1, p.2))
      = fun p => "arg_" ++ toString p.1 := funext fun _ => rfl
  simp only [namedArgs, List.map_map, h1]
  rw [List.enum_eq_zip_range]
  have h2 : (fun p : Nat × Expr => "arg_" ++ toString p.1)
      = (fun i : Nat => "arg_" ++ toString i) ∘ Prod.fst := funext fun _ => rfl
  rw [h2, ← List.map_map, List.map_fst_zip _ _ (by simp)]

theorem namedArgs_values (l : List Expr) : (namedArgs l).map Prod.snd = l := by
  have h1 : (Prod.snd ∘ fun p : Nat × Expr => ("arg_" ++ toString p.1, p.2))
      = Prod.snd := funext fun _ => rfl
  simp only [namedArgs, List.map_map, h1]
  exact List.enum_map_snd l

/-- C6: the projection-flavor desugarer compiles an inline call with `k`
positional arguments by recursively rewriting each argument, binding the
rewritten arguments under the synthetic names `arg_0..arg_(k-1)` (in order,
with the rewritten expressions as values), requesting a row transformer sized
by `k` and by the statically inferred type of the original call expression,
building the operator input relation from the raw callee expression plus the
named argument columns, and returning a column reference to the `result`
column of the generated operator's output relation. -/
theorem eval_call_structure (c : CallbackCtx) (callee : Expr) (args : List Expr) :
    selectDesugarExpr c (.call callee args)
      = .columnRef
          (c.transformerTable args.length (c.evalType (.call callee args))
            (c.mkInput callee (namedArgs (args.map (selectDesugarExpr c))))) "result"
    ∧ (namedArgs (args.map (selectDesugarExpr c))).map Prod.fst
        = (List.range args.length).map (fun i => "arg_" ++ toString i)
    ∧ (namedArgs (args.map (selectDesugarExpr c))).map Prod.snd
        = args.map (selectDesugarExpr c) := by
  refine ⟨?_, ?_, namedArgs_values _⟩
  · simp [selectDesugarExpr, selectDesugarList_eq_map]
  · rw [namedArgs_names]
    simp

/-- C7: the aggregation-flavor desugarer rewrites a reducer expression by
desugaring every argument against the pre-aggregation relation with the
projection-flavor desugarer built over the group's source, and rebuilds a
reducer expression with the same reducer around the rewritten arguments. -/
theorem eval_reducer_structure (cr cs : CallbackCtx) (r : Nat) (args : List Expr) :
    reduceDesugarExpr cr cs (.reducer r args)
      = .reducer r (args.map (selectDesugarExpr cs)) := by
  simp [reduceDesugarExpr, selectDesugarList_eq_map]

/-- An argument bound by a call to a wrapped operation: either a
relation/joinable — which exposes a `DesugaringContext` carrying its active
scope substitution — or a column expression.  (`ThisMetaclass` spread
arguments and other value kinds are outside the claims under study.) -/
inductive CallArg where
  | tbl (id : Nat) (sub : List (Nat × Nat))
  | exprA (e : Expr)

/-- The failures the wrapper can raise, in the order the code can reach them:
the `assert len(named_args) > 0`, a scope binding naming a parameter not bound
to a relation, and a scope-token lookup miss during self-reference
resolution. -/
inductive WErr where
  | assertEmpty
  | badBinding (tok : Nat)
  | scopeMiss
deriving DecidableEq, Repr

/-- Python dict assignment `m[k] = v`: replace the value in place when the key
is present, append otherwise. -/
def dictInsert : List (String × CallArg) → String → CallArg → List (String × CallArg)
  | [], k, v => [(k, v)]
  | p :: ps, k, v => if p.1 = k then (k, v) :: ps else p :: dictInsert ps k v

/-- The binding step of the wrapper (desugaring.py line 282):
`named_args = {**dict(zip(fn_spec.arg_names, args)), **kwargs}` — positional
arguments zipped with the declared parameter names, then updated with the
keyword arguments. -/
def wrapperNamed (argNames : List String) (args : List CallArg)
    (kwargs : List (String × CallArg)) : List (String × CallArg) :=
  kwargs.foldl (fun acc p => dictInsert acc p.1 p.2) (argNames.zip args)

/-- Python dict assignment over the substitution mapping. -/
def updateKey : List (Nat × Nat) → Nat → Nat → List (Nat × Nat)
  | [], k, v => [(k, v)]
  | p :: ps, k, v => if p.1 = k then (k, v) :: ps else p :: updateKey ps k v

/-- The scope-binding loop of the wrapper (desugaring.py lines 293-295):
`this_substitution[key] = named_args[value]` for every declared binding.
Modelled: the named argument a binding points at must be a relation; a lookup
miss or a non-relation value is the `badBinding` failure. -/
def applyBindings (named : List (String × CallArg)) (subParam : List (Nat × String))
    (σ0 : List (Nat × Nat)) : Except WErr (List (Nat × Nat)) :=
  subParam.foldlM
    (fun σ kv =>
      match List.lookup kv.2 named with
      | some (.tbl i _) => .ok (updateKey σ kv.1 i)
      | _ => .error (.badBinding kv.1))
    σ0

/-- Embeds steps 1-3 of the wrapper (desugaring.py lines 282-295): assert that
at least one argument is bound; take the FIRST bound argument and, if it is a
`DesugaringContext`, start from a copy of its active substitution, else from
the empty mapping; then install every scope binding the operation declares on
top. -/
def computeThisSubst (subParam : List (Nat × String))
    (named : List (String × CallArg)) : Except WErr (List (Nat × Nat)) :=
  match named with
  | [] => .error .assertEmpty
  | (_, first) :: _ =>
      let inherited := match first with
        | .tbl _ s => s
        | _ => []
      applyBindings named subParam inherited

/-- Step 4 of the wrapper (`_desugar_this_arg`, desugaring.py lines 194-198):
an expression argument is resolved by `ThisDesugaring`; a relation argument is
not an expression, so the transform's `eval_any` returns it unchanged. -/
def desugarCallArg (σ : List (Nat × Nat)) : CallArg → Except WErr CallArg
  | .tbl i s => .ok (.tbl i s)
  | .exprA e =>
      match thisDesugar σ e with
      | some e' => .ok (.exprA e')
      | none => .error .scopeMiss

/-- Step 5 of the wrapper: the rewriter currently active on the context
(`desugaring_context._desugaring`, keyed here by the context relation's
identity) is run over every expression argument; non-expression arguments
pass through `eval_any` unchanged. -/
def applyCtx (rw : Expr → Expr) : CallArg → CallArg
  | .tbl i s => .tbl i s
  | .exprA e => .exprA (rw e)

/-- The per-argument resolution loop of `_desugar_this_args` (desugaring.py
lines 201-216) over the positional arguments. -/
def desugarCallArgs (σ : List (Nat × Nat)) : List CallArg → Except WErr (List CallArg)
  | [] => .ok []
  | a :: as => do
      let a' ← desugarCallArg σ a
      let as' ← desugarCallArgs σ as
      .ok (a' :: as')

/-- The per-argument resolution loop of `_desugar_this_kwargs` (desugaring.py
lines 219-237) over the keyword arguments. -/
def desugarCallKwargs (σ : List (Nat × Nat)) :
    List (String × CallArg) → Except WErr (List (String × CallArg))
  | [] => .ok []
  | p :: ps => do
      let v ← desugarCallArg σ p.2
      let ps' ← desugarCallKwargs σ ps
      .ok ((p.1, v) :: ps')

/-- Embeds the whole `desugar` wrapper (desugaring.py lines 275-310),
parameterized by the per-context rewriter `ctxRw` and the operation's declared
scope bindings `subParam`; returns the fully rewritten positional and keyword
arguments handed to the underlying operation. -/
def runWrapper (ctxRw : Nat → Expr → Expr) (subParam : List (Nat × String))
    (argNames : List String) (args : List CallArg)
    (kwargs : List (String × CallArg)) :
    Except WErr (List CallArg × List (String × CallArg)) := do
  let named := wrapperNamed argNames args kwargs
  let σ ← computeThisSubst subParam named
  let args' ← desugarCallArgs σ args
  let kwargs' ← desugarCallKwargs σ kwargs
  match named with
  | (_, .tbl i _) :: _ =>
      .ok (args'.map (applyCtx (ctxRw i)),
        kwargs'.map fun p => (p.1, applyCtx (ctxRw i) p.2))
  | _ => .ok (args', kwargs')

theorem applyBindings_ne_assertEmpty (named : List (String × CallArg)) :
    ∀ (subParam : List (Nat × String)) (σ0 : List (Nat × Nat)),
    applyBindings named subParam σ0 ≠ .error .assertEmpty := by
  intro subParam
  induction subParam with
  | nil =>
      intro σ0 h
      rw [applyBindings, List.foldlM_nil] at h
      exact absurd h (by simp [pure, Except.pure])
  | cons kv rest ih =>
      intro σ0 h
      rw [applyBindings, List.foldlM_cons] at h
      rcases hl : List.lookup kv.2 named with _ | a
      · rw [hl, exceptBind_error] at h
        simp at h
      · cases a with
        | tbl i s =>
            rw [hl, exceptBind_ok] at h
            exact ih (updateKey σ0 kv.1 i) h
        | exprA e =>
            rw [hl, exceptBind_error] at h
            simp at h

theorem desugarCallArg_error_eq (σ : List (Nat × Nat)) (a : CallArg) (e : WErr)
    (h : desugarCallArg σ a = .error e) : e = .scopeMiss := by
  cases a with
  | tbl i s => simp [desugarCallArg] at h
  | exprA ex =>
      rcases hd : thisDesugar σ ex with _ | e'
      · simp only [desugarCallArg, hd] at h
        simp only [Except.error.injEq] at h
        exact h.symm
      · simp [desugarCallArg, hd] at h

theorem desugarCallArgs_ne_assertEmpty (σ : List (Nat × Nat)) :
    ∀ l : List CallArg, desugarCallArgs σ l ≠ .error .assertEmpty := by
  intro l
  induction l with
  | nil => simp [desugarCallArgs]
  | cons a as ih =>
      intro h
      simp only [desugarCallArgs] at h
      rcases ha : desugarCallArg σ a with e | a'
      · rw [ha, exceptBind_error] at h
        have he := desugarCallArg_error_eq σ a e ha
        subst he
        simp at h
      · rw [ha, exceptBind_ok] at h
        rcases has : desugarCallArgs σ as with e | l'
        · rw [has, exceptBind_error] at h
          simp only [Except.error.injEq] at h
          exact ih (h ▸ has)
        · rw [has, exceptBind_ok] at h
          simp at h

theorem desugarCallKwargs_ne_assertEmpty (σ : List (Nat × Nat)) :
    ∀ l : List (String × CallArg), desugarCallKwargs σ l ≠ .error .assertEmpty := by
  intro l
  induction l with
  | nil => simp [desugarCallKwargs]
  | cons p ps ih =>
      intro h
      simp only [desugarCallKwargs] at h
      rcases ha : desugarCallArg σ p.2 with e | v
      · rw [ha, exceptBind_error] at h
        have he := desugarCallArg_error_eq σ p.2 e ha
        subst he
        simp at h
      · rw [ha, exceptBind_ok] at h
        rcases has : desugarCallKwargs σ ps with e | ps'
        · rw [has, exceptBind_error] at h
          simp only [Except.error.injEq] at h
          exact ih (h ▸ has)
        · rw [has, exceptBind_ok] at h
          simp at h

theorem lookup_updateKey_self (σ : List (Nat × Nat)) (k v : Nat) :
    List.lookup k (updateKey σ k v) = some v := by
  induction σ with
  | nil => simp [updateKey, List.lookup]
  | cons p ps ih =>
      rw [updateKey]
      by_cases h : p.1 = k
      · rw [if_pos h]
        simp [List.lookup]
      · rw [if_neg h]
        cases p with
        | mk a b =>
            simp only at h
            have hne : (k == a) = false := by
              simp only [beq_eq_false_iff_ne]
              exact fun hk => h hk.symm
            simp [List.lookup, hne, ih]

theorem lookup_updateKey_other (σ : List (Nat × Nat)) (k v k' : Nat) (h : k' ≠ k) :
    List.lookup k' (updateKey σ k v) = List.lookup k' σ := by
  induction σ with
  | nil =>
      have hne : (k' == k) = false := by simpa [beq_eq_false_iff_ne] using h
      simp [updateKey, List.lookup, hne]
  | cons p ps ih =>
      rw [updateKey]
      by_cases hp : p.1 = k
      · rw [if_pos hp]
        cases p with
        | mk a b =>
            simp only at hp
            subst hp
            have hne : (k' == a) = false := by simpa [beq_eq_false_iff_ne] using h
            simp [List.lookup, hne]
      · rw [if_neg hp]
        cases p with
        | mk a b => simp [List.lookup, ih]

theorem applyBindings_lookup_unbound (named : List (String × CallArg)) :
    ∀ (subParam : List (Nat × String)) (σ0 σ' : List (Nat × Nat)) (k : Nat),
    applyBindings named subParam σ0 = .ok σ' →
    (∀ p ∈ subParam, p.1 ≠ k) →
    List.lookup k σ' = List.lookup k σ0 := by
  intro subParam
  induction subParam with
  | nil =>
      intro σ0 σ' k hok _
      rw [applyBindings, List.foldlM_nil] at hok
      have : σ0 = σ' := by simpa [pure, Except.pure] using hok
      rw [this]
  | cons kv rest ih =>
      intro σ0 σ' k hok hun
      rw [applyBindings, List.foldlM_cons] at hok
      rcases hl : List.lookup kv.2 named with _ | a
      · rw [hl, exceptBind_error] at hok
        simp at hok
      · cases a with
        | tbl i s =>
            rw [hl, exceptBind_ok] at hok
            have h1 := ih (updateKey σ0 kv.1 i) σ' k hok
              (fun p hp => hun p (List.mem_cons_of_mem _ hp))
            rw [h1, lookup_updateKey_other σ0 kv.1 i k
              (Ne.symm (hun kv (List.mem_cons_self _ _)))]
        | exprA e =>
            rw [hl, exceptBind_error] at hok
            simp at hok

theorem applyBindings_lookup_bound (named : List (String × CallArg)) :
    ∀ (subParam : List (Nat × String)) (σ0 σ' : List (Nat × Nat))
      (k : Nat) (pn : String) (i : Nat) (s' : List (Nat × Nat)),
    (subParam.map Prod.fst).Nodup →
    (k, pn) ∈ subParam →
    List.lookup pn named = some (.tbl i s') →
    applyBindings named subParam σ0 = .ok σ' →
    List.lookup k σ' = some i := by
  intro subParam
  induction subParam with
  | nil => intro _ _ _ _ _ _ _ hmem; simp at hmem
  | cons kv rest ih =>
      intro σ0 σ' k pn i s' hnd hmem hpn hok
      rw [applyBindings, List.foldlM_cons] at hok
      rcases List.mem_cons.mp hmem with heq | htail
      · subst heq
        rw [hpn, exceptBind_ok] at hok
        have hknot : k ∉ rest.map Prod.fst := by
          simp only [List.map_cons, List.nodup_cons] at hnd
          exact hnd.1
        have := applyBindings_lookup_unbound named rest
          (updateKey σ0 k i) σ' k hok
          (fun p hp hk => hknot (hk ▸ List.mem_map_of_mem Prod.fst hp))
        rw [this, lookup_updateKey_self]
      · rcases hl : List.lookup kv.2 named with _ | a
        · rw [hl, exceptBind_error] at hok
          simp at hok
        · cases a with
          | tbl j s2 =>
              rw [hl, exceptBind_ok] at hok
              have hnd' : (rest.map Prod.fst).Nodup := by
                simp only [List.map_cons, List.nodup_cons] at hnd
                exact hnd.2
              exact ih (updateKey σ0 kv.1 j) σ' k pn i s' hnd' htail hpn hok
          | exprA e =>
              rw [hl, exceptBind_error] at hok
              simp at hok

/-- C10: the wrapper asserts that at least one argument is bound: an
invocation binding zero positional and zero keyword arguments fails the
assertion (before any rewriting and before the underlying operation), and
whenever at least one argument is bound the assertion branch is unreachable —
the wrapper may still fail later, but never with the empty-arguments
assertion. -/
theorem wrapper_assert_nonempty (ctxRw : Nat → Expr → Expr)
    (subParam : List (Nat × String)) (argNames : List String)
    (args : List CallArg) (kwargs : List (String × CallArg)) :
    runWrapper ctxRw subParam argNames [] [] = .error .assertEmpty
    ∧ (wrapperNamed argNames args kwargs ≠ [] →
        runWrapper ctxRw subParam argNames args kwargs ≠ .error .assertEmpty) := by
  constructor
  · have hnamed : wrapperNamed argNames [] [] = [] := by
      simp [wrapperNamed]
    rw [runWrapper, hnamed]
    rfl
  · intro hne h
    rw [runWrapper] at h
    rcases hσ : computeThisSubst subParam (wrapperNamed argNames args kwargs)
      with e | σ
    · rw [hσ, exceptBind_error] at h
      simp only [Except.error.injEq] at h
      subst h
      rcases hn : wrapperNamed argNames args kwargs with _ | ⟨⟨nm, fa⟩, tl⟩
      · exact hne hn
      · rw [hn] at hσ
        cases fa with
        | tbl i s =>
            simp only [computeThisSubst] at hσ
            exact applyBindings_ne_assertEmpty _ _ _ hσ
        | exprA e =>
            simp only [computeThisSubst] at hσ
            exact applyBindings_ne_assertEmpty _ _ _ hσ
    · rw [hσ, exceptBind_ok] at h
      rcases ha : desugarCallArgs σ args with e | args'
      · rw [ha, exceptBind_error] at h
        simp only [Except.error.injEq] at h
        exact desugarCallArgs_ne_assertEmpty σ args (h ▸ ha)
      · rw [ha, exceptBind_ok] at h
        rcases hk : desugarCallKwargs σ kwargs with e | kwargs'
        · rw [hk, exceptBind_error] at h
          simp only [Except.error.injEq] at h
          exact desugarCallKwargs_ne_assertEmpty σ kwargs (h ▸ hk)
        · rw [hk, exceptBind_ok] at h
          rcases hn : wrapperNamed argNames args kwargs with _ | ⟨⟨nm, fa⟩, tl⟩
          · exact hne hn
          · rw [hn] at h
            cases fa <;> simp at h

theorem wrapper_assert_nonempty_witness :
    runWrapper (fun _ e => e) [] ["self"] [.tbl 1 []] [] ≠ .error .assertEmpty :=
  (wrapper_assert_nonempty (fun _ e => e) [] ["self"] [.tbl 1 []] []).2
    (by simp [wrapperNamed])

/-- The substitution the wrapper starts from, as a function of the first bound
argument: the active substitution of its context when it exposes one, the
empty mapping otherwise. -/
def inheritedSub : CallArg → List (Nat × Nat)
  | .tbl _ s => s
  | .exprA _ => []

/-- C4 counterexample: the wrapper inspects only the FIRST bound argument.
With the first bound argument a plain expression and the second a relation
exposing a rewriting context with active substitution `[(0, 5)]` and no
declared scope bindings, the wrapper computes the empty substitution — it does
not inherit `[(0, 5)]` from the first argument that exposes a context, as the
claim requires. -/
theorem first_arg_context_counterexample :
    computeThisSubst [] [("a", .exprA (.const .vnull)), ("b", .tbl 7 [(0, 5)])]
      = .ok []
    ∧ computeThisSubst [] [("a", .exprA (.const .vnull)), ("b", .tbl 7 [(0, 5)])]
      ≠ .ok [(0, 5)] := by
  refine ⟨rfl, fun h => ?_⟩
  rw [show computeThisSubst []
      [("a", CallArg.exprA (.const .vnull)), ("b", CallArg.tbl 7 [(0, 5)])]
      = .ok ([] : List (Nat × Nat)) from rfl] at h
  simp at h

/-- C4 amended: the wrapper examines only the first bound argument; when that
first argument exposes an active rewriting context its current substitution is
inherited, otherwise nothing is inherited; the scope bindings the operation
declares are then applied on top, so a token not bound by the operation
resolves as in the inherited mapping, while a token the operation binds (to a
named argument carrying a relation) resolves to that relation, overriding any
inherited entry. -/
theorem wrapper_substitution_amended (subParam : List (Nat × String))
    (nm : String) (first : CallArg) (rest : List (String × CallArg))
    (σ' : List (Nat × Nat)) :
    (computeThisSubst subParam ((nm, first) :: rest) = .ok σ' →
      ∀ k, (∀ p ∈ subParam, p.1 ≠ k) →
        List.lookup k σ' = List.lookup k (inheritedSub first))
    ∧ ((subParam.map Prod.fst).Nodup →
        ∀ (k : Nat) (pn : String) (i : Nat) (s' : List (Nat × Nat)),
        (k, pn) ∈ subParam →
        List.lookup pn ((nm, first) :: rest) = some (.tbl i s') →
        computeThisSubst subParam ((nm, first) :: rest) = .ok σ' →
        List.lookup k σ' = some i) := by
  constructor
  · intro hok k hun
    cases first with
    | tbl j s =>
        simp only [computeThisSubst] at hok
        exact applyBindings_lookup_unbound _ subParam s σ' k hok hun
    | exprA e =>
        simp only [computeThisSubst] at hok
        exact applyBindings_lookup_unbound _ subParam [] σ' k hok hun
  · intro hnd k pn i s' hmem hpn hok
    cases first with
    | tbl j s =>
        simp only [computeThisSubst] at hok
        exact applyBindings_lookup_bound _ subParam s σ' k pn i s' hnd hmem hpn hok
    | exprA e =>
        simp only [computeThisSubst] at hok
        exact applyBindings_lookup_bound _ subParam [] σ' k pn i s' hnd hmem hpn hok

theorem wrapper_substitution_amended_witness :
    List.lookup 2 ([(0, 7), (2, 3)] : List (Nat × Nat))
      = List.lookup 2 (inheritedSub (.tbl 1 [(0, 9), (2, 3)]))
    ∧ List.lookup 0 ([(0, 7), (2, 3)] : List (Nat × Nat)) = some 7 :=
  ⟨(wrapper_substitution_amended [(0, "g")] "self" (.tbl 1 [(0, 9), (2, 3)])
      [("g", .tbl 7 [])] [(0, 7), (2, 3)]).1 rfl 2 (by decide),
   (wrapper_substitution_amended [(0, "g")] "self" (.tbl 1 [(0, 9), (2, 3)])
      [("g", .tbl 7 [])] [(0, 7), (2, 3)]).2 (by simp) 0 "g" 7 []
     (by simp) rfl rfl⟩

end Desugaring
